import Mathlib

/-!
Verification development for the aulon2 CLI (src/main.rs) and the
BBFS/NAND storage core it drives.  Text is represented as `List Char`;
machine integers are `Nat` with explicit `% 2 ^ 16` where the Rust code
uses `u16`.
-/

namespace Aulon2

/-- The NAND block size used throughout `main.rs` (`0x4000`). -/
def blockSize : Nat := 0x4000

/-- `2 ^ 16`, the modulus of the Rust `u16` type the range indices live in. -/
def u16Mod : Nat := 65536

/-- Rust `str::split(sep)` on a character: splits into the (possibly empty)
pieces between occurrences of `sep`; the empty string yields `[[]]`. -/
def splitOnChar (sep : Char) : List Char → List (List Char)
  | [] => [[]]
  | c :: rest =>
    match splitOnChar sep rest with
    | [] => if c = sep then [[], []] else [[c]]
    | h :: t => if c = sep then [] :: h :: t else (c :: h) :: t

/-- The error kinds of Rust `std::num::ParseIntError` reachable from
`u16::from_str_radix` on sign-free input. -/
inductive IntErrorKind where
  | empty
  | invalidDigit
  | posOverflow
  deriving DecidableEq, Repr

/-- The `Display` text of each `ParseIntError` kind (Rust std). -/
def intErrorMessage : IntErrorKind → List Char
  | .empty => "cannot parse integer from empty string".toList
  | .invalidDigit => "invalid digit found in string".toList
  | .posOverflow => "number too large to fit in target type".toList

/-- `char::to_digit`: the numeric value of an ASCII digit or letter. -/
def digitValue (c : Char) : Option Nat :=
  if '0' ≤ c ∧ c ≤ '9' then some (c.toNat - '0'.toNat)
  else if 'a' ≤ c ∧ c ≤ 'z' then some (c.toNat - 'a'.toNat + 10)
  else if 'A' ≤ c ∧ c ≤ 'Z' then some (c.toNat - 'A'.toNat + 10)
  else none

/-- The digit-accumulation loop of `u16::from_str_radix`: folds digits left
to right, failing with `invalidDigit` on a non-digit and with `posOverflow`
as soon as the accumulator would leave `u16` range. -/
def digitsToU16 (radix : Nat) : List Char → Nat → Except IntErrorKind Nat
  | [], acc => .ok acc
  | c :: rest, acc =>
    match digitValue c with
    | some d =>
      if d < radix then
        if acc * radix + d < u16Mod then digitsToU16 radix rest (acc * radix + d)
        else .error .posOverflow
      else .error .invalidDigit
    | none => .error .invalidDigit

/-- `u16::from_str_radix`: empty input is `Empty`; a leading `+` is allowed
but must be followed by at least one digit. -/
def fromStrRadixU16 (radix : Nat) (cs : List Char) : Except IntErrorKind Nat :=
  match cs with
  | [] => .error .empty
  | c :: rest =>
    let ds := if c = '+' then rest else c :: rest
    match ds with
    | [] => .error .invalidDigit
    | _ => digitsToU16 radix ds 0

/-- `parse_int::parse::<u16>`: strips underscores, then dispatches on the
`0x`/`0o`/`0b` radix prefix, defaulting to decimal. -/
def parseU16 (cs : List Char) : Except IntErrorKind Nat :=
  match cs.filter (fun c => c ≠ '_') with
  | '0' :: 'x' :: rest => fromStrRadixU16 16 rest
  | '0' :: 'o' :: rest => fromStrRadixU16 8 rest
  | '0' :: 'b' :: rest => fromStrRadixU16 2 rest
  | stripped => fromStrRadixU16 10 stripped

/-- The two failure modes of the command-`2` range parser: a section with
three or more `-`-separated parts (`eprintln!("Invalid block range selection
'{sect}'")`), or a number that fails to parse (`eprintln!("{e}")`). -/
inductive RangeError where
  | invalidSelection (sect : List Char)
  | parseError (e : IntErrorKind)
  deriving DecidableEq, Repr

/-- The exact text printed for each range-parsing failure in `main.rs`. -/
def rangeErrorMessage : RangeError → List Char
  | .invalidSelection sect =>
    "Invalid block range selection '".toList ++ sect ++ "'".toList
  | .parseError e => intErrorMessage e

/-- The implicit end bound `(nand.len() / 0x4000) as u16` used when the
right side of a span is empty. -/
def implicitEnd (nandLen : Nat) : Nat := nandLen / blockSize % u16Mod

/-- One comma-separated section of the command-`2` range spec: split on
`-`; one part is a single index, two parts are a half-open `start..end`
span with empty bounds defaulting to `0` and `implicitEnd`, anything else
is rejected. -/
def parseItem (nandLen : Nat) (sect : List Char) : Except RangeError (List Nat) :=
  match splitOnChar '-' sect with
  | [s] =>
    match parseU16 s with
    | .ok n => .ok [n]
    | .error e => .error (.parseError e)
  | [s1, s2] =>
    match (if s1 = [] then .ok 0 else parseU16 s1 : Except IntErrorKind Nat) with
    | .error e => .error (.parseError e)
    | .ok start =>
      match (if s2 = [] then .ok (implicitEnd nandLen) else parseU16 s2 :
          Except IntErrorKind Nat) with
      | .error e => .error (.parseError e)
      | .ok stop => .ok (List.range' start (stop - start))
  | _ => .error (.invalidSelection sect)

/-- The section loop of the command-`2` handler: sections are processed in
textual order, each appending its indices to `ranges`; the first failure
aborts the whole command (`continue 'repl`). -/
def parseSections (nandLen : Nat) : List (List Char) → Except RangeError (List Nat)
  | [] => .ok []
  | sect :: rest =>
    match parseItem nandLen sect with
    | .error e => .error e
    | .ok rs =>
      match parseSections nandLen rest with
      | .error e => .error e
      | .ok rest' => .ok (rs ++ rest')

/-- `which_blocks` in the command-`2` handler: only token counts 2 and 4
parse the last token as a range spec; any other count selects `None`
(the full image). -/
def parseWhichBlocks (cmdLen : Nat) (lastToken : List Char) (nandLen : Nat) :
    Except RangeError (Option (List Nat)) :=
  match cmdLen with
  | 2 | 4 =>
    match parseSections nandLen (splitOnChar ',' lastToken) with
    | .error e => .error e
    | .ok rs => .ok (some rs)
  | _ => .ok none

/-- Observable outcome of the command-`2` handler after both image files
were read: either range parsing failed (the REPL continues and
`WriteNANDSpare` is never invoked) or `WriteNANDSpare` is invoked with the
parsed selection. -/
inductive RestoreOutcome where
  | parseFailed (msg : List Char)
  | wrote (selection : Option (List Nat))
  deriving DecidableEq, Repr

/-- The command-`2` handler from the point where `nand`/`spare` are in
memory: parse `which_blocks`, then call `WriteNANDSpare`. -/
def command2 (cmdLen : Nat) (lastToken : List Char) (nandLen : Nat) : RestoreOutcome :=
  match parseWhichBlocks cmdLen lastToken nandLen with
  | .error e => .parseFailed (rangeErrorMessage e)
  | .ok sel => .wrote sel

/-- The largest element of a list of indices (0 for the empty list). -/
def listMax (rs : List Nat) : Nat := rs.foldr max 0

/-- Modelled from the spec: the order in which `WriteNANDSpare` (absent
from src/, part of the bbrdb core) applies a parsed block selection — "the
union (deduplicated, unordered is acceptable internally but must be
applied in ascending order for determinism) of all items". -/
def appliedSequence (rs : List Nat) : List Nat :=
  (List.range (listMax rs + 1)).filter (fun i => rs.contains i)

/-- Observable outcome of the command-`7` (rename) handler. -/
inductive RenameOutcome where
  | usageError
  | indexPanic
  | invoked (src dst : List Char)
  deriving DecidableEq, Repr

/-- The command-`7` handler: guard `command.len() < 2`, then read
`command[1]` and `command[2]`; an out-of-range read is a panic. -/
def command7 (command : List (List Char)) : RenameOutcome :=
  if command.length < 2 then .usageError
  else
    match command[1]?, command[2]? with
    | some f, some t => .invoked f t
    | _, _ => .indexPanic

/-- The filename filter of the command-`L` handler:
`filename.ends_with(".rec") || filename.ends_with(".app")`. -/
def isGameFile (filename : List Char) : Bool :=
  ".rec".toList.isSuffixOf filename || ".app".toList.isSuffixOf filename

/-- The print loop of the command-`L` (list games) handler: emits exactly
the entries of `ListFiles` whose name ends in `.rec` or `.app`, in order. -/
def commandLOutput : List (List Char × Nat) → List (List Char × Nat)
  | [] => []
  | (filename, size) :: rest =>
    if isGameFile filename then (filename, size) :: commandLOutput rest
    else commandLOutput rest

/-- The print loop of the command-`5` (list files) handler: emits every
entry of `ListFiles`, in order. -/
def command5Output : List (List Char × Nat) → List (List Char × Nat)
  | [] => []
  | f :: rest => f :: command5Output rest

/-! ### Superblock / sequence journal (bbrdb core, modelled from the spec) -/

/-- A candidate superblock copy: whether its embedded checksum validates,
and its sequence number. -/
structure SuperblockCopy where
  valid : Bool
  seqno : Nat
  deriving DecidableEq, Repr

/-- The fatal filesystem-layer error when no superblock copy validates. -/
inductive SuperblockError where
  | noValidSuperblock
  deriving DecidableEq, Repr

/-- The highest-sequence-number scan over the remaining valid copies. -/
def pickHighest (c : SuperblockCopy) (cs : List SuperblockCopy) : SuperblockCopy :=
  cs.foldl (fun best x => if best.seqno < x.seqno then x else best) c

/-- Modelled from the spec: `loadAuthoritative` (absent from src/, part of
the bbrdb core) reads each reserved copy, discards those failing the
integrity check, and returns the valid copy with the highest sequence
number, failing with `NoValidSuperblock` if none validate. -/
def loadAuthoritative (copies : List SuperblockCopy) :
    Except SuperblockError SuperblockCopy :=
  match copies.filter (fun c => c.valid) with
  | [] => .error .noValidSuperblock
  | c :: cs => .ok (pickHighest c cs)

/-! ### FileTable / BBFS (bbrdb core, modelled from the spec) -/

/-- Split a byte sequence into consecutive blocks of at most `blockSize`
bytes (the last one possibly shorter). -/
def chunkList (bytes : List Nat) : List (List Nat) :=
  if h : bytes = [] then []
  else bytes.take blockSize :: chunkList (bytes.drop blockSize)
  termination_by bytes.length
  decreasing_by
    cases bytes with
    | nil => exact absurd rfl h
    | cons a t => simp [List.length_drop, blockSize]; omega

/-- The BBFS state: block count, per-block contents, the bad-block table,
and the file table mapping each name to its extent. -/
structure BBFSState where
  numBlocks : Nat
  blockData : Nat → List Nat
  badBlocks : List Nat
  table : List (List Char × List Nat)

/-- All block indices referenced by some file-table entry. -/
def referencedBlocks (table : List (List Char × List Nat)) : List Nat :=
  table.foldr (fun e acc => e.2 ++ acc) []

/-- The free set: indices below `numBlocks` that are neither bad nor
referenced by any existing entry. -/
def freeList (s : BBFSState) : List Nat :=
  (List.range s.numBlocks).filter
    (fun i => !(s.badBlocks.contains i) && !((referencedBlocks s.table).contains i))

/-- Write the given chunks to the given block indices, in order. -/
def writeBlocksFn (f : Nat → List Nat) : List Nat → List (List Nat) → (Nat → List Nat)
  | [], _ => f
  | _ :: _, [] => f
  | i :: is, c :: cs => writeBlocksFn (fun j => if j = i then c else f j) is cs

/-- Modelled from the spec: `FileTable.write` (absent from src/, part of
the bbrdb core) allocates blocks for the new content from the free set,
writes the data blocks, then commits a directory in which the new entry
replaces any old entry of the same name; it fails if not enough free
blocks exist. -/
def bbfsWrite (s : BBFSState) (name : List Char) (bytes : List Nat) :
    Option BBFSState :=
  let cs := chunkList bytes
  let free := freeList s
  if cs.length ≤ free.length then
    some { numBlocks := s.numBlocks
           blockData := writeBlocksFn s.blockData (free.take cs.length) cs
           badBlocks := s.badBlocks
           table := (s.table.filter (fun e => e.1 ≠ name)) ++
             [(name, free.take cs.length)] }
  else none

/-- `FileTable.read` error cases: missing name, or a bad constituent block. -/
inductive ReadError where
  | notFound
  | dataError
  deriving DecidableEq, Repr

/-- Modelled from the spec: `FileTable.read` (absent from src/, part of the
bbrdb core) looks the name up in the directory, fails with a data error if
any constituent block is bad, and otherwise concatenates the extent's
blocks. -/
def bbfsRead (s : BBFSState) (name : List Char) : Except ReadError (List Nat) :=
  match s.table.find? (fun e => e.1 == name) with
  | none => .error .notFound
  | some e =>
    if e.2.any (fun i => s.badBlocks.contains i) then .error .dataError
    else .ok (e.2.map s.blockData).flatten

/-- A tiny concrete BBFS state used to exercise the write/read round trip:
four blocks, block 1 bad, empty directory. -/
def exState : BBFSState :=
  { numBlocks := 4
    blockData := fun _ => []
    badBlocks := [1]
    table := [] }

/-- The concrete file name used in the round-trip example. -/
def exName : List Char := "save".toList

/-- The state produced by writing `[1, 2, 3]` as `exName` into `exState`. -/
def exWritten : BBFSState :=
  { numBlocks := 4
    blockData := writeBlocksFn (fun _ => []) [0] [[1, 2, 3]]
    badBlocks := [1]
    table := [(exName, [0])] }

/-! ## Lemmas about the splitting and number-parsing embedding -/

theorem splitOnChar_ne_nil (sep : Char) (s : List Char) : splitOnChar sep s ≠ [] := by
  cases s with
  | nil => simp [splitOnChar]
  | cons c rest =>
    simp only [splitOnChar]
    cases h : splitOnChar sep rest with
    | nil => by_cases hc : c = sep <;> simp [hc]
    | cons hd tl => by_cases hc : c = sep <;> simp [hc]

theorem splitOnChar_of_not_mem {sep : Char} {s : List Char} (h : sep ∉ s) :
    splitOnChar sep s = [s] := by
  induction s with
  | nil => rfl
  | cons c rest ih =>
    simp only [List.mem_cons, not_or] at h
    simp only [splitOnChar, ih h.2]
    rw [if_neg (fun hc => h.1 hc.symm)]

theorem splitOnChar_append_sep {sep : Char} {a b : List Char} (h : sep ∉ a) :
    splitOnChar sep (a ++ sep :: b) = a :: splitOnChar sep b := by
  induction a with
  | nil =>
    simp only [List.nil_append, splitOnChar]
    cases hb : splitOnChar sep b with
    | nil => exact absurd hb (splitOnChar_ne_nil sep b)
    | cons hd tl => simp
  | cons c rest ih =>
    simp only [List.mem_cons, not_or] at h
    show splitOnChar sep (c :: (rest ++ sep :: b)) = (c :: rest) :: splitOnChar sep b
    simp only [splitOnChar]
    rw [ih h.2]
    show (if c = sep then [] :: rest :: splitOnChar sep b
      else (c :: rest) :: splitOnChar sep b) = (c :: rest) :: splitOnChar sep b
    rw [if_neg (fun hc => h.1 hc.symm)]

theorem digitsToU16_lt {radix : Nat} {cs : List Char} {acc v : Nat}
    (hacc : acc < u16Mod) (h : digitsToU16 radix cs acc = .ok v) : v < u16Mod := by
  induction cs generalizing acc with
  | nil =>
    simp only [digitsToU16, Except.ok.injEq] at h
    omega
  | cons c rest ih =>
    simp only [digitsToU16] at h
    split at h
    case h_2 => cases h
    case h_1 d hd =>
      by_cases h1 : d < radix
      · rw [if_pos h1] at h
        by_cases h2 : acc * radix + d < u16Mod
        · rw [if_pos h2] at h
          exact ih h2 h
        · rw [if_neg h2] at h; cases h
      · rw [if_neg h1] at h; cases h

theorem fromStrRadixU16_lt {radix : Nat} {cs : List Char} {v : Nat}
    (h : fromStrRadixU16 radix cs = .ok v) : v < u16Mod := by
  cases cs with
  | nil => cases h
  | cons c rest =>
    simp only [fromStrRadixU16] at h
    split at h
    · cases h
    · exact digitsToU16_lt (by norm_num [u16Mod]) h

theorem parseU16_lt {cs : List Char} {v : Nat} (h : parseU16 cs = .ok v) :
    v < u16Mod := by
  unfold parseU16 at h
  split at h <;> exact fromStrRadixU16_lt h

theorem parseItem_single {nandLen : Nat} {s : List Char} {n : Nat}
    (hs : '-' ∉ s) (h : parseU16 s = .ok n) :
    parseItem nandLen s = .ok [n] := by
  simp only [parseItem, splitOnChar_of_not_mem hs, h]

theorem parseItem_span {nandLen : Nat} {s1 s2 : List Char} {v1 v2 : Nat}
    (h1m : '-' ∉ s1) (h2m : '-' ∉ s2)
    (h1 : s1 ≠ []) (h2 : s2 ≠ [])
    (hp1 : parseU16 s1 = .ok v1) (hp2 : parseU16 s2 = .ok v2) :
    parseItem nandLen (s1 ++ '-' :: s2) = .ok (List.range' v1 (v2 - v1)) := by
  simp only [parseItem, splitOnChar_append_sep h1m, splitOnChar_of_not_mem h2m]
  rw [if_neg h1, if_neg h2, hp1, hp2]

theorem parseItem_omitted_start {nandLen : Nat} {s2 : List Char} {v : Nat}
    (h2m : '-' ∉ s2) (h2 : s2 ≠ []) (hp2 : parseU16 s2 = .ok v) :
    parseItem nandLen ('-' :: s2) = .ok (List.range' 0 v) := by
  have hsplit : splitOnChar '-' ('-' :: s2) = [[], s2] := by
    have := @splitOnChar_append_sep '-' [] s2 (by simp)
    rw [List.nil_append, splitOnChar_of_not_mem h2m] at this
    exact this
  simp only [parseItem, hsplit]
  simp [h2, hp2]

theorem parseItem_omitted_end {nandLen : Nat} {s1 : List Char} {v : Nat}
    (h1m : '-' ∉ s1) (h1 : s1 ≠ []) (hp1 : parseU16 s1 = .ok v) :
    parseItem nandLen (s1 ++ ['-']) =
      .ok (List.range' v (implicitEnd nandLen - v)) := by
  have hsplit : splitOnChar '-' (s1 ++ ['-']) = [s1, []] := by
    have := @splitOnChar_append_sep '-' s1 [] h1m
    rw [show splitOnChar '-' [] = [[]] from rfl] at this
    exact this
  simp only [parseItem, hsplit]
  simp [h1, hp1]

theorem parseItem_dash (nandLen : Nat) :
    parseItem nandLen ['-'] = .ok (List.range' 0 (implicitEnd nandLen)) := by
  simp only [parseItem, show splitOnChar '-' ['-'] = [[], []] from rfl]
  simp

/-! ## Claim theorems about the range parser -/

/-- C2: a bare `start-end` item parses to the half-open range `[start, end)`
and a bare `index` item to the single-element selection `{index}`, with
numbers decimal by default and hexadecimal when 0x-prefixed; the spec
"0-0x100,4075" parses to the indices 0 through 255 together with 4075. -/
theorem wellformed_item_parsing :
    (∀ nandLen (s : List Char) n, '-' ∉ s → parseU16 s = .ok n →
      parseItem nandLen s = .ok [n]) ∧
    (∀ nandLen (s1 s2 : List Char) v1 v2, '-' ∉ s1 → '-' ∉ s2 →
      s1 ≠ [] → s2 ≠ [] → parseU16 s1 = .ok v1 → parseU16 s2 = .ok v2 →
      parseItem nandLen (s1 ++ '-' :: s2) = .ok (List.range' v1 (v2 - v1))) ∧
    (∀ v1 v2 b, b ∈ List.range' v1 (v2 - v1) ↔ v1 ≤ b ∧ b < v2) ∧
    parseU16 "0x100".toList = .ok 256 ∧
    parseU16 "4075".toList = .ok 4075 ∧
    parseWhichBlocks 2 "0-0x100,4075".toList (4096 * blockSize) =
      .ok (some (List.range' 0 256 ++ [4075])) ∧
    (∀ b, b ∈ List.range' 0 256 ++ [4075] ↔ b < 256 ∨ b = 4075) := by
  refine ⟨fun _ _ _ hm hp => parseItem_single hm hp,
    fun _ _ _ _ _ h1m h2m h1 h2 hp1 hp2 => parseItem_span h1m h2m h1 h2 hp1 hp2,
    ?_, rfl, rfl, rfl, ?_⟩
  · intro v1 v2 b
    rw [List.mem_range'_1]
    omega
  · intro b
    simp only [List.mem_append, List.mem_range'_1, List.mem_singleton]
    omega

theorem wellformed_item_parsing_witness :
    parseItem 0 "7".toList = .ok [7] ∧
    parseItem 0 "2-5".toList = .ok (List.range' 2 3) := by
  constructor
  · exact wellformed_item_parsing.1 0 "7".toList 7 (by decide) rfl
  · have := wellformed_item_parsing.2.1 0 "2".toList "5".toList 2 5
      (by decide) (by decide) (by decide) (by decide) rfl rfl
    simpa using this

/-- C3 (amended): an omitted start bound means block 0; an omitted end
bound means `nand.len() / 0x4000` truncated to 16 bits by the `as u16`
cast, which for an image of fewer than 2^16 blocks is one past the last
block; under that proviso "-" selects the full image `[0, N)` and "10-"
selects `[10, N)`. -/
theorem omitted_bounds_default (nandLen : Nat)
    (hsmall : nandLen / blockSize < u16Mod) :
    parseItem nandLen ['-'] = .ok (List.range' 0 (nandLen / blockSize)) ∧
    parseWhichBlocks 2 ['-'] nandLen =
      .ok (some (List.range' 0 (nandLen / blockSize))) ∧
    parseItem nandLen ('1' :: '0' :: ['-']) =
      .ok (List.range' 10 (nandLen / blockSize - 10)) ∧
    (∀ (s2 : List Char) v, '-' ∉ s2 → s2 ≠ [] → parseU16 s2 = .ok v →
      parseItem nandLen ('-' :: s2) = .ok (List.range' 0 v)) ∧
    (∀ (s1 : List Char) v, '-' ∉ s1 → s1 ≠ [] → parseU16 s1 = .ok v →
      parseItem nandLen (s1 ++ ['-']) =
        .ok (List.range' v (nandLen / blockSize - v))) := by
  have hIE : implicitEnd nandLen = nandLen / blockSize := Nat.mod_eq_of_lt hsmall
  have hdash := parseItem_dash nandLen
  rw [hIE] at hdash
  refine ⟨hdash, ?_, ?_, ?_, ?_⟩
  · simp [parseWhichBlocks, show splitOnChar ',' ['-'] = [['-']] from rfl,
      parseSections, hdash]
  · have h10 := @parseItem_omitted_end nandLen "10".toList 10
      (by decide) (by decide) rfl
    rw [hIE] at h10
    simpa using h10
  · intro s2 v h2m h2 hp2
    exact parseItem_omitted_start h2m h2 hp2
  · intro s1 v h1m h1 hp1
    have h := @parseItem_omitted_end nandLen s1 v h1m h1 hp1
    rwa [hIE] at h

theorem omitted_bounds_default_witness :
    parseItem (4096 * blockSize) ['-'] =
      .ok (List.range' 0 (4096 * blockSize / blockSize)) :=
  (omitted_bounds_default (4096 * blockSize) (by norm_num [blockSize, u16Mod])).1

/-- C3 counterexample: for an image of exactly 2^16 blocks (0x40000000
bytes) the spec "-" yields the empty selection because the implicit end
bound is truncated to a `u16`, so the claimed full-image selection
`[0, N)` is not produced. -/
theorem omitted_end_truncation_counterexample :
    command2 2 ['-'] 0x40000000 = .wrote (some []) ∧
    0x40000000 / blockSize = 65536 ∧
    List.range' 0 (0x40000000 / blockSize) ≠ [] := by
  refine ⟨rfl, rfl, fun h => ?_⟩
  have hlen := congrArg List.length h
  rw [List.length_range'] at hlen
  norm_num [blockSize] at hlen

/-- C4 (amended): whenever range parsing fails the restore command reports
the failure and `WriteNANDSpare` is never invoked; a section with three or
more dash-separated parts is reported with a message containing the
offending segment, while a failed number parse is reported with the bare
integer-parse error text. -/
theorem malformed_range_no_write :
    ∀ cmdLen (token : List Char) nandLen e,
      parseWhichBlocks cmdLen token nandLen = .error e →
      (command2 cmdLen token nandLen = .parseFailed (rangeErrorMessage e) ∧
        ∀ sel, command2 cmdLen token nandLen ≠ .wrote sel) ∧
      (∀ sect, e = .invalidSelection sect →
        sect <:+: rangeErrorMessage e) := by
  intro cmdLen token nandLen e h
  refine ⟨⟨by simp [command2, h], fun sel hc => by simp [command2, h] at hc⟩, ?_⟩
  rintro sect rfl
  exact ⟨"Invalid block range selection '".toList, "'".toList,
    by simp [rangeErrorMessage]⟩

theorem malformed_range_no_write_witness :
    (command2 2 "a-b-c".toList 64 =
      .parseFailed (rangeErrorMessage (.invalidSelection "a-b-c".toList)) ∧
      ∀ sel, command2 2 "a-b-c".toList 64 ≠ .wrote sel) ∧
    "a-b-c".toList <:+: rangeErrorMessage (.invalidSelection "a-b-c".toList) := by
  have h := malformed_range_no_write 2 "a-b-c".toList 64
    (.invalidSelection "a-b-c".toList) rfl
  exact ⟨h.1, h.2 "a-b-c".toList rfl⟩

/-- C4 counterexample: for the item "zz" the number parse fails and the
printed error text "invalid digit found in string" does not contain the
offending segment, so the error does not identify it. -/
theorem parse_failure_message_counterexample :
    command2 2 "zz".toList 64 =
      .parseFailed "invalid digit found in string".toList ∧
    ¬ ("zz".toList <:+: "invalid digit found in string".toList) :=
  ⟨rfl, by decide⟩

/-- C6: invoking restore without a range spec (any token count other than
2 or 4, in particular the 3-token form with the two file names) passes the
selection `None`, denoting the full image, to `WriteNANDSpare`. -/
theorem no_ranges_selection_none (token : List Char) (nandLen : Nat) :
    command2 3 token nandLen = .wrote none ∧
    ∀ cmdLen, cmdLen ≠ 2 → cmdLen ≠ 4 →
      command2 cmdLen token nandLen = .wrote none := by
  refine ⟨rfl, ?_⟩
  intro cmdLen h2 h4
  match cmdLen, h2, h4 with
  | 0, _, _ => rfl
  | 1, _, _ => rfl
  | 2, h2, _ => exact absurd rfl h2
  | 3, _, _ => rfl
  | 4, _, h4 => exact absurd rfl h4
  | (n + 5), _, _ => rfl

theorem no_ranges_selection_none_witness :
    command2 5 "0-4".toList 0 = .wrote none :=
  (no_ranges_selection_none "0-4".toList 0).2 5 (by decide) (by decide)

/-- C7: range indices are parsed into 16-bit unsigned integers — every
accepted number is below 2^16 and explicit values at or above 2^16 are
rejected with an overflow error — and the implicit end bound is the image
block count reduced modulo 2^16. -/
theorem range_parse_u16_bound :
    (∀ (cs : List Char) v, parseU16 cs = .ok v → v < u16Mod) ∧
    parseU16 "65536".toList = .error .posOverflow ∧
    parseU16 "0x10000".toList = .error .posOverflow ∧
    (∀ nandLen, parseItem nandLen ['-'] =
      .ok (List.range' 0 (nandLen / blockSize % u16Mod))) :=
  ⟨fun _ _ h => parseU16_lt h, rfl, rfl, fun nandLen => parseItem_dash nandLen⟩

theorem range_parse_u16_bound_witness :
    parseU16 "0x1f".toList = .ok 31 ∧ 31 < u16Mod :=
  ⟨rfl, range_parse_u16_bound.1 "0x1f".toList 31 rfl⟩

/-! ## The applied selection order (C1) -/

theorem le_listMax {rs : List Nat} {b : Nat} (h : b ∈ rs) : b ≤ listMax rs := by
  induction rs with
  | nil => cases h
  | cons a t ih =>
    rcases List.mem_cons.mp h with rfl | h'
    · exact le_max_left _ _
    · exact le_trans (ih h') (le_max_right _ _)

theorem listMax_mem (rs : List Nat) : listMax rs = 0 ∨ listMax rs ∈ rs := by
  induction rs with
  | nil => exact Or.inl rfl
  | cons a t ih =>
    show max a (listMax t) = 0 ∨ max a (listMax t) ∈ a :: t
    rcases le_total a (listMax t) with hle | hle
    · rw [max_eq_right hle]
      rcases ih with h0 | hmem
      · exact Or.inl h0
      · exact Or.inr (List.mem_cons_of_mem _ hmem)
    · rw [max_eq_left hle]
      exact Or.inr (List.mem_cons_self _ _)

theorem mem_appliedSequence {rs : List Nat} {b : Nat} :
    b ∈ appliedSequence rs ↔ b ∈ rs := by
  simp only [appliedSequence, List.mem_filter, List.mem_range]
  constructor
  · intro h
    simpa using h.2
  · intro h
    exact ⟨Nat.lt_succ_of_le (le_listMax h), by simpa using h⟩

theorem appliedSequence_sorted (rs : List Nat) :
    (appliedSequence rs).Sorted (· < ·) :=
  (List.pairwise_lt_range _).filter _

theorem appliedSequence_nodup (rs : List Nat) : (appliedSequence rs).Nodup :=
  (List.nodup_range _).filter _

theorem listMax_congr {r1 r2 : List Nat} (h : ∀ b, b ∈ r1 ↔ b ∈ r2) :
    listMax r1 = listMax r2 := by
  have h12 : listMax r1 ≤ listMax r2 := by
    rcases listMax_mem r1 with h0 | hmem
    · omega
    · exact le_listMax ((h _).mp hmem)
  have h21 : listMax r2 ≤ listMax r1 := by
    rcases listMax_mem r2 with h0 | hmem
    · omega
    · exact le_listMax ((h _).mpr hmem)
  omega

theorem appliedSequence_congr {r1 r2 : List Nat} (h : ∀ b, b ∈ r1 ↔ b ∈ r2) :
    appliedSequence r1 = appliedSequence r2 := by
  unfold appliedSequence
  rw [listMax_congr h]
  refine List.filter_congr fun x _ => ?_
  rw [Bool.eq_iff_iff]
  simpa using h x

theorem parseSections_mem {nandLen : Nat} :
    ∀ {sects : List (List Char)} {rs : List Nat},
      parseSections nandLen sects = .ok rs →
      ∀ b, b ∈ rs ↔ ∃ sect ∈ sects, ∃ is, parseItem nandLen sect = .ok is ∧ b ∈ is := by
  intro sects
  induction sects with
  | nil =>
    intro rs h b
    simp only [parseSections, Except.ok.injEq] at h
    subst h
    simp
  | cons sect rest ih =>
    intro rs h b
    simp only [parseSections] at h
    cases hi : parseItem nandLen sect with
    | error e => rw [hi] at h; cases h
    | ok is0 =>
      rw [hi] at h
      cases hr : parseSections nandLen rest with
      | error e => rw [hr] at h; cases h
      | ok rest' =>
        rw [hr] at h
        cases h
        rw [List.mem_append]
        constructor
        · rintro (hb | hb)
          · exact ⟨sect, List.mem_cons_self _ _, is0, hi, hb⟩
          · obtain ⟨s, hs, is, his, hbi⟩ := (ih hr b).mp hb
            exact ⟨s, List.mem_cons_of_mem _ hs, is, his, hbi⟩
        · rintro ⟨s, hs, is, his, hbi⟩
          rcases List.mem_cons.mp hs with rfl | hs'
          · rw [hi] at his
            cases his
            exact Or.inl hbi
          · exact Or.inr ((ih hr b).mpr ⟨s, hs', is, his, hbi⟩)

/-- C1: the block selection applied for a range spec is the union of all
comma-separated items; the spec-modelled application deduplicates it and
proceeds in ascending index order, so specs that denote the same set of
indices — such as "4,2" versus "2,4", or "5,5" versus "5" — yield the same
applied sequence. -/
theorem restore_selection_dedup_ascending :
    (∀ rs, (appliedSequence rs).Sorted (· < ·)) ∧
    (∀ rs, (appliedSequence rs).Nodup) ∧
    (∀ rs b, b ∈ appliedSequence rs ↔ b ∈ rs) ∧
    (∀ r1 r2 : List Nat, (∀ b, b ∈ r1 ↔ b ∈ r2) →
      appliedSequence r1 = appliedSequence r2) ∧
    (∀ nandLen (sects : List (List Char)) rs,
      parseSections nandLen sects = .ok rs →
      ∀ b, b ∈ rs ↔ ∃ sect ∈ sects, ∃ is, parseItem nandLen sect = .ok is ∧ b ∈ is) ∧
    parseWhichBlocks 2 "4,2".toList 0 = .ok (some [4, 2]) ∧
    parseWhichBlocks 2 "2,4".toList 0 = .ok (some [2, 4]) ∧
    appliedSequence [4, 2] = appliedSequence [2, 4] ∧
    parseWhichBlocks 2 "5,5".toList 0 = .ok (some [5, 5]) ∧
    parseWhichBlocks 2 "5".toList 0 = .ok (some [5]) ∧
    appliedSequence [5, 5] = appliedSequence [5] :=
  ⟨appliedSequence_sorted, appliedSequence_nodup, fun _ _ => mem_appliedSequence,
    fun _ _ h => appliedSequence_congr h,
    fun _ _ _ h b => parseSections_mem h b,
    rfl, rfl, rfl, rfl, rfl, rfl⟩

theorem restore_selection_dedup_ascending_witness :
    appliedSequence [4, 2] = appliedSequence [2, 4] ∧
    (3 ∈ appliedSequence [3, 9] ↔ 3 ∈ ([3, 9] : List Nat)) :=
  ⟨restore_selection_dedup_ascending.2.2.2.1 [4, 2] [2, 4]
      (by intro b; simp only [List.mem_cons, List.not_mem_nil]; tauto),
    restore_selection_dedup_ascending.2.2.1 [3, 9] 3⟩

/-! ## The rename handler (C5) -/

/-- C5: the rename handler's guard only rejects lines with fewer than two
tokens, yet the handler reads `command[2]`; for a line of exactly two
tokens that access is out of bounds. -/
theorem rename_two_tokens_out_of_bounds :
    ∀ command : List (List Char), command.length = 2 →
      command7 command = .indexPanic := by
  intro command h
  match command, h with
  | [a, b], _ => rfl

theorem rename_two_tokens_out_of_bounds_witness :
    command7 ["7".toList, "save.rec".toList] = .indexPanic :=
  rename_two_tokens_out_of_bounds _ rfl

/-! ## The game-listing filter (C8) -/

/-- C8: the command-`L` output is exactly the command-`5` output restricted
to names ending in ".rec" or ".app", in the order returned by `ListFiles`;
in particular it is a subsequence of the full listing. -/
theorem games_listing_filters_full_listing :
    ∀ files : List (List Char × Nat),
      commandLOutput files = (command5Output files).filter (fun f => isGameFile f.1) ∧
      (commandLOutput files).Sublist (command5Output files) := by
  intro files
  induction files with
  | nil => exact ⟨rfl, List.Sublist.refl _⟩
  | cons f rest ih =>
    obtain ⟨h1, h2⟩ := ih
    obtain ⟨filename, size⟩ := f
    by_cases hg : isGameFile filename
    · constructor
      · simp only [commandLOutput, command5Output, hg, if_true, List.filter_cons]
        rw [h1]
      · simp only [commandLOutput, command5Output, hg, if_true]
        exact h2.cons₂ _
    · constructor
      · simp only [commandLOutput, command5Output, hg, if_false, List.filter_cons]
        rw [h1]
      · simp only [commandLOutput, command5Output, hg, if_false]
        exact h2.cons _

/-! ## The authoritative superblock (C9) -/

theorem pickHighest_mem (c : SuperblockCopy) (cs : List SuperblockCopy) :
    pickHighest c cs ∈ c :: cs := by
  induction cs generalizing c with
  | nil => exact List.mem_cons_self _ _
  | cons x t ih =>
    have hred : pickHighest c (x :: t) =
        pickHighest (if c.seqno < x.seqno then x else c) t := rfl
    rw [hred]
    rcases List.mem_cons.mp (ih (if c.seqno < x.seqno then x else c)) with h | h
    · rw [h]
      split
      · exact List.mem_cons_of_mem _ (List.mem_cons_self _ _)
      · exact List.mem_cons_self _ _
    · exact List.mem_cons_of_mem _ (List.mem_cons_of_mem _ h)

theorem pickHighest_ge (c : SuperblockCopy) (cs : List SuperblockCopy) :
    ∀ d ∈ c :: cs, d.seqno ≤ (pickHighest c cs).seqno := by
  induction cs generalizing c with
  | nil =>
    intro d hd
    rcases List.mem_cons.mp hd with rfl | h
    · exact le_refl _
    · cases h
  | cons x t ih =>
    intro d hd
    show d.seqno ≤ (pickHighest (if c.seqno < x.seqno then x else c) t).seqno
    have hbase : ∀ e : SuperblockCopy, e = c ∨ e = x →
        e.seqno ≤ (if c.seqno < x.seqno then x else c).seqno := by
      rintro e (rfl | rfl) <;> split <;> omega
    have hstep := ih (if c.seqno < x.seqno then x else c)
    rcases List.mem_cons.mp hd with rfl | hd'
    · exact le_trans (hbase d (Or.inl rfl)) (hstep _ (List.mem_cons_self _ _))
    · rcases List.mem_cons.mp hd' with rfl | hd''
      · exact le_trans (hbase d (Or.inr rfl)) (hstep _ (List.mem_cons_self _ _))
      · exact hstep d (List.mem_cons_of_mem _ hd'')

/-- C9: `loadAuthoritative` fails with `NoValidSuperblock` exactly when no
copy passes the integrity check, and otherwise returns a valid on-device
copy whose sequence number is strictly highest among the valid copies
(given the spec invariant that valid sequence numbers are distinct). -/
theorem loadAuthoritative_highest_valid (copies : List SuperblockCopy)
    (hdist : (copies.filter (fun c => c.valid)).Pairwise
      (fun a b => a.seqno ≠ b.seqno)) :
    (loadAuthoritative copies = .error .noValidSuperblock ↔
      ∀ c ∈ copies, c.valid = false) ∧
    (∀ c, loadAuthoritative copies = .ok c →
      c.valid = true ∧ c ∈ copies ∧
      (∀ d ∈ copies, d.valid = true → d.seqno ≤ c.seqno) ∧
      (∀ d ∈ copies, d.valid = true → d ≠ c → d.seqno < c.seqno)) := by
  unfold loadAuthoritative
  cases hF : copies.filter (fun c => c.valid) with
  | nil =>
    constructor
    · simp only [true_iff]
      intro c hc
      by_contra hv
      have : c ∈ copies.filter (fun c => c.valid) :=
        List.mem_filter.mpr ⟨hc, by simp [Bool.not_eq_false] at hv; simp [hv]⟩
      rw [hF] at this
      cases this
    · intro c hc
      cases hc
  | cons c0 cs =>
    have hmemF : ∀ d, d ∈ copies.filter (fun c => c.valid) ↔
        (d ∈ copies ∧ d.valid = true) := by
      intro d
      rw [List.mem_filter]
    constructor
    · constructor
      · intro h
        cases h
      · intro hall
        have hc0 : c0 ∈ copies.filter (fun c => c.valid) := by
          rw [hF]; exact List.mem_cons_self _ _
        have := (hmemF c0).mp hc0
        rw [hall c0 this.1] at this
        cases this.2
    · intro c hc
      have hceq : c = pickHighest c0 cs := by
        cases hc
        rfl
      have hcF : c ∈ copies.filter (fun c => c.valid) := by
        rw [hF, hceq]
        exact pickHighest_mem c0 cs
      have hcprops := (hmemF c).mp hcF
      refine ⟨hcprops.2, hcprops.1, ?_, ?_⟩
      · intro d hd hdv
        have hdF : d ∈ c0 :: cs := by
          rw [← hF]
          exact (hmemF d).mpr ⟨hd, hdv⟩
        rw [hceq]
        exact pickHighest_ge c0 cs d hdF
      · intro d hd hdv hne
        have hdF : d ∈ copies.filter (fun c => c.valid) :=
          (hmemF d).mpr ⟨hd, hdv⟩
        have hsymm : Symmetric (fun a b : SuperblockCopy => a.seqno ≠ b.seqno) :=
          fun a b hab => hab.symm
        have hne' : d.seqno ≠ c.seqno := hdist.forall hsymm hdF hcF hne
        have hle : d.seqno ≤ c.seqno := by
          rw [hceq]
          refine pickHighest_ge c0 cs d ?_
          rw [← hF]
          exact hdF
        omega

theorem loadAuthoritative_highest_valid_witness :
    loadAuthoritative
        [⟨true, 3⟩, ⟨false, 10⟩, ⟨true, 7⟩] = .ok ⟨true, 7⟩ ∧
    (⟨true, 3⟩ : SuperblockCopy).seqno < (⟨true, 7⟩ : SuperblockCopy).seqno := by
  have hok : loadAuthoritative
      [⟨true, 3⟩, ⟨false, 10⟩, ⟨true, 7⟩] = .ok ⟨true, 7⟩ := rfl
  refine ⟨hok, ?_⟩
  have h := (loadAuthoritative_highest_valid
    [⟨true, 3⟩, ⟨false, 10⟩, ⟨true, 7⟩] (by decide)).2 ⟨true, 7⟩ hok
  exact h.2.2.2 ⟨true, 3⟩ (by decide) rfl (by decide)

/-! ## The BBFS write/read round trip (C10) -/

theorem chunkList_flatten_aux : ∀ (n : Nat) (bytes : List Nat), bytes.length ≤ n →
    (chunkList bytes).flatten = bytes := by
  intro n
  induction n with
  | zero =>
    intro bytes hb
    have hbe : bytes = [] := List.eq_nil_of_length_eq_zero (Nat.le_zero.mp hb)
    subst hbe
    rw [chunkList]
    simp
  | succ n ih =>
    intro bytes hb
    rw [chunkList]
    by_cases hbe : bytes = []
    · rw [dif_pos hbe]
      simp [hbe]
    · rw [dif_neg hbe, List.flatten_cons]
      have hdl : (bytes.drop blockSize).length ≤ n := by
        rw [List.length_drop]
        have hpos : 0 < bytes.length := List.length_pos.mpr hbe
        simp only [blockSize] at *
        omega
      rw [ih _ hdl, List.take_append_drop]

theorem chunkList_flatten (bytes : List Nat) : (chunkList bytes).flatten = bytes :=
  chunkList_flatten_aux bytes.length bytes (le_refl _)

theorem find?_append_of_false {α : Type} {p : α → Bool} {l1 l2 : List α}
    (h : ∀ e ∈ l1, p e = false) :
    List.find? p (l1 ++ l2) = List.find? p l2 := by
  induction l1 with
  | nil => rfl
  | cons a t ih =>
    rw [List.cons_append, List.find?_cons, h a (List.mem_cons_self _ _)]
    exact ih fun e he => h e (List.mem_cons_of_mem _ he)

theorem writeBlocksFn_not_mem {f : Nat → List Nat} {is : List Nat}
    {cs : List (List Nat)} {i : Nat} (h : i ∉ is) :
    writeBlocksFn f is cs i = f i := by
  induction is generalizing f cs with
  | nil => rfl
  | cons j js ih =>
    cases cs with
    | nil => rfl
    | cons c ct =>
      simp only [List.mem_cons, not_or] at h
      show writeBlocksFn (fun k => if k = j then c else f k) js ct i = f i
      rw [ih h.2]
      exact if_neg h.1

theorem map_writeBlocksFn : ∀ (ext : List Nat) (cs : List (List Nat))
    (f : Nat → List Nat), ext.Nodup → ext.length = cs.length →
    ext.map (writeBlocksFn f ext cs) = cs := by
  intro ext
  induction ext with
  | nil =>
    intro cs f _ hlen
    cases cs with
    | nil => rfl
    | cons c ct => cases hlen
  | cons i is ih =>
    intro cs f hnd hlen
    cases cs with
    | nil => cases hlen
    | cons c ct =>
      have hnd' := List.nodup_cons.mp hnd
      show (i :: is).map (writeBlocksFn (fun k => if k = i then c else f k) is ct) =
        c :: ct
      rw [List.map_cons]
      congr 1
      · rw [writeBlocksFn_not_mem hnd'.1, if_pos rfl]
      · exact ih ct _ hnd'.2 (by simpa using hlen)

theorem freeList_nodup (s : BBFSState) : (freeList s).Nodup :=
  (List.nodup_range _).filter _

theorem freeList_not_bad {s : BBFSState} {i : Nat} (h : i ∈ freeList s) :
    s.badBlocks.contains i = false := by
  have := (List.mem_filter.mp h).2
  simp only [Bool.and_eq_true, Bool.not_eq_true'] at this
  exact this.1

/-- C10: a successful `write(name, bytes)` followed by `read(name)` returns
exactly `bytes`; the allocator only draws from non-bad free blocks, so the
new entry's extent never touches a bad block's allocation. -/
theorem bbfs_write_read_roundtrip (s : BBFSState) (name : List Char)
    (bytes : List Nat) (s' : BBFSState)
    (h : bbfsWrite s name bytes = some s') :
    bbfsRead s' name = .ok bytes := by
  unfold bbfsWrite at h
  by_cases hle : (chunkList bytes).length ≤ (freeList s).length
  · rw [if_pos hle] at h
    cases h
    unfold bbfsRead
    have hext_len : ((freeList s).take (chunkList bytes).length).length =
        (chunkList bytes).length := by
      rw [List.length_take]
      omega
    have hfind : List.find? (fun e => e.1 == name)
        ((s.table.filter (fun e => e.1 ≠ name)) ++
          [(name, (freeList s).take (chunkList bytes).length)]) =
        some (name, (freeList s).take (chunkList bytes).length) := by
      rw [find?_append_of_false, List.find?_cons]
      · simp
      · intro e he
        have := (List.mem_filter.mp he).2
        simpa [beq_iff_eq] using this
    rw [hfind]
    have hnobad : ((freeList s).take (chunkList bytes).length).any
        (fun i => s.badBlocks.contains i) = false := by
      rw [List.any_eq_false]
      intro i hi
      have hbad := @freeList_not_bad s i (List.mem_of_mem_take hi)
      simpa using hbad
    dsimp only
    rw [hnobad, if_neg Bool.false_ne_true]
    have hmap : ((freeList s).take (chunkList bytes).length).map
        (writeBlocksFn s.blockData
          ((freeList s).take (chunkList bytes).length) (chunkList bytes)) =
        chunkList bytes :=
      map_writeBlocksFn _ _ _
        ((freeList_nodup s).sublist (List.take_sublist _ _)) hext_len
    rw [hmap, chunkList_flatten]
  · rw [if_neg hle] at h
    cases h

theorem bbfs_write_read_roundtrip_witness :
    bbfsWrite exState exName [1, 2, 3] = some exWritten ∧
    bbfsRead exWritten exName = .ok [1, 2, 3] := by
  have hchunk : chunkList [1, 2, 3] = [[1, 2, 3]] := by
    rw [chunkList]
    rw [dif_neg (by simp)]
    rw [List.take_of_length_le (by norm_num [blockSize]),
      List.drop_eq_nil_of_le (by norm_num [blockSize])]
    rw [chunkList]
    rfl
  have hfree : freeList exState = [0, 2, 3] := by decide
  have hw : bbfsWrite exState exName [1, 2, 3] = some exWritten := by
    unfold bbfsWrite
    rw [hchunk, hfree]
    rfl
  exact ⟨hw, bbfs_write_read_roundtrip exState exName [1, 2, 3] exWritten hw⟩

end Aulon2
